import Mathlib

/-!
Verification of the dumbcas storage engine specification against a shallow
embedding of its Go source (maruel/dumbcas).

The embedding models the filesystem as a partial map from paths to byte lists,
readers as byte lists with an optional failure after the produced bytes, and
translates each operation (CasTable.AddEntry, AddBytes, Enumerate, fsck's CAS
pass, gcMain, nodesTable.AddEntry, cache.Close, restoreEntry, CountMembers)
directly from the corresponding Go function.
-/

namespace Dumbcas

/-- A filesystem: partial map from path to file contents (bytes). -/
def FS : Type := String → Option (List Nat)

/-- Write (create or truncate) a file at path `p` with contents `bytes`. -/
def fsWrite (fs : FS) (p : String) (bytes : List Nat) : FS :=
  fun q => if q = p then some bytes else fs q

/-- Model of an `io.Reader`: the bytes it successfully produces, and whether it
then fails with a read error (before reaching EOF). `io.Copy` writes the
produced bytes to the destination and returns the reader's error, if any. -/
structure ByteSource where
  data : List Nat
  fails : Bool

/-- Character class of the anchored regex `[a-f0-9]` used by
`casTable.validPath` (cas.go / part_026). -/
def isHexDigit (c : Char) : Bool :=
  ('a' ≤ c && c ≤ 'f') || ('0' ≤ c && c ≤ '9')

/-- Anchored match of `^[a-f0-9]{n}$`. -/
def matchesHex (n : Nat) (s : String) : Bool :=
  s.length == n && s.data.all isHexDigit

/-- `casTable.validPath`: `^([a-f0-9]{40})$` with `hashLength = 40`. -/
def isValidHash (s : String) : Bool :=
  matchesHex 40 s

/-- `casTable.filePath` (part_026): valid hashes map to
`cas/<hash[:3]>/<hash[3:]>` (`prefixLength = 3`); an invalid hash yields the
empty path, modelled as `none` (the subsequent open then fails). -/
def filePath (hash : String) : Option String :=
  if isValidHash hash then some ("cas/" ++ hash.take 3 ++ "/" ++ hash.drop 3)
  else none

/-- The path `cas/<h[:3]>/<h[3:]>` of a hash. -/
def casPath (hash : String) : String :=
  "cas/" ++ hash.take 3 ++ "/" ++ hash.drop 3

/-- Outcome of `casTable.AddEntry`. -/
inductive AddResult where
  | ok
  | alreadyExists
  | openFailed
  | copyFailed
  deriving DecidableEq, Repr

/-- `casTable.AddEntry` (part_026 lines 158-172): open the destination with
`O_WRONLY|O_CREATE|O_EXCL`; if the file exists return the exists-error leaving
the store untouched; other open failures (invalid hash) also leave the store
untouched; otherwise `io.Copy` the source into the destination file — bytes
read before a reader failure remain in the created file and the copy error is
returned. -/
def AddEntry (fs : FS) (source : ByteSource) (hash : String) : AddResult × FS :=
  match filePath hash with
  | none => (.openFailed, fs)
  | some dst =>
    match fs dst with
    | some _ => (.alreadyExists, fs)
    | none =>
      let fs' := fsWrite fs dst source.data
      if source.fails then (.copyFailed, fs') else (.ok, fs')

/-- `AddBytes` (part_026 lines 212-215): hash the in-memory buffer, then
`AddEntry` with a reader over that buffer (which never fails). The SHA-1
function itself is `crypto/sha1` from the standard library, taken here as a
parameter. -/
def AddBytes (sha1 : List Nat → String) (fs : FS) (data : List Nat) :
    String × AddResult × FS :=
  (sha1 data, AddEntry fs ⟨data, false⟩ (sha1 data))

/-- `Entry` (dumbcaslib/entry.go): a manifest node with a sha1, a size, and a
map from child name to child entry; the Go `map[string]*Entry` is modelled as
an association list. -/
inductive Entry where
  | mk (sha1 : String) (size : Int) (files : List (String × Entry))
  deriving Repr

/-- The sha1 field of an entry. -/
def Entry.sha1 : Entry → String
  | .mk s _ _ => s

/-- The size field of an entry. -/
def Entry.size : Entry → Int
  | .mk _ z _ => z

/-- The child map of an entry. -/
def Entry.files : Entry → List (String × Entry)
  | .mk _ _ f => f

mutual

/-- `Entry.CountMembers` (dumbcaslib/entry.go lines 44-50): `countI := 1`, then
add `v.CountMembers()` for every child `v`. -/
def Entry.countMembers : Entry → Nat
  | .mk _ _ files => 1 + countMembersList files

/-- The loop `for _, v := range e.Files { countI += v.CountMembers() }`. -/
def countMembersList : List (String × Entry) → Nat
  | [] => 0
  | (_, e) :: rest => Entry.countMembers e + countMembersList rest

end

/-- `EntryCache` (dumbcaslib/cache.go): a cached record with sha1, size, mtime
(`Timestamp`), `LastTested`, and a child map; the Go `map[string]*EntryCache`
is modelled as an association list. -/
inductive EntryCache where
  | mk (sha1 : String) (size : Int) (timestamp : Int) (lastTested : Int)
      (files : List (String × EntryCache))
  deriving Repr

/-- The sha1 field of a cache node. -/
def EntryCache.sha1 : EntryCache → String
  | .mk s _ _ _ _ => s

/-- The size field of a cache node. -/
def EntryCache.size : EntryCache → Int
  | .mk _ z _ _ _ => z

/-- The timestamp (mtime) field of a cache node. -/
def EntryCache.timestamp : EntryCache → Int
  | .mk _ _ t _ _ => t

/-- The lastTested field of a cache node. -/
def EntryCache.lastTested : EntryCache → Int
  | .mk _ _ _ t _ => t

/-- The child map of a cache node. -/
def EntryCache.files : EntryCache → List (String × EntryCache)
  | .mk _ _ _ _ f => f

mutual

/-- `EntryCache.CountMembers` (dumbcaslib/cache.go lines 60-66): `sum := 1`,
then add `v.CountMembers()` for every child `v`. -/
def EntryCache.countMembers : EntryCache → Nat
  | .mk _ _ _ _ files => 1 + cacheCountMembersList files

/-- The loop `for _, v := range e.Files { sum += v.CountMembers() }`. -/
def cacheCountMembersList : List (String × EntryCache) → Nat
  | [] => 0
  | (_, e) :: rest => EntryCache.countMembers e + cacheCountMembersList rest

end

theorem countMembersList_eq_sum (l : List (String × Entry)) :
    countMembersList l = (l.map (fun p => Entry.countMembers p.2)).sum := by
  induction l with
  | nil => rfl
  | cons x t ih =>
    obtain ⟨n, e⟩ := x
    simp [countMembersList, ih]

theorem cacheCountMembersList_eq_sum (l : List (String × EntryCache)) :
    cacheCountMembersList l = (l.map (fun p => EntryCache.countMembers p.2)).sum := by
  induction l with
  | nil => rfl
  | cons x t ih =>
    obtain ⟨n, e⟩ := x
    simp [cacheCountMembersList, ih]

/-- Claim C10: for every `EntryCache` or `Entry` tree, `CountMembers` returns
1 plus the sum of `CountMembers` over all children; the node itself is always
counted, so the result for an empty root is 1, never 0, and the result is
always strictly positive. -/
theorem countMembers_one_plus_children :
    (∀ e : Entry,
        Entry.countMembers e
          = 1 + (e.files.map (fun p => Entry.countMembers p.2)).sum
        ∧ 0 < Entry.countMembers e)
    ∧ (∀ s z, Entry.countMembers (.mk s z []) = 1)
    ∧ (∀ e : EntryCache,
        EntryCache.countMembers e
          = 1 + (e.files.map (fun p => EntryCache.countMembers p.2)).sum
        ∧ 0 < EntryCache.countMembers e)
    ∧ (∀ s z t u, EntryCache.countMembers (.mk s z t u []) = 1) := by
  refine ⟨fun e => ?_, fun s z => rfl, fun e => ?_, fun s z t u => rfl⟩
  · obtain ⟨s, z, files⟩ := e
    refine ⟨?_, ?_⟩
    · simp [Entry.countMembers, Entry.files, countMembersList_eq_sum]
    · simp [Entry.countMembers]
  · obtain ⟨s, z, t, u, files⟩ := e
    refine ⟨?_, ?_⟩
    · simp [EntryCache.countMembers, EntryCache.files, cacheCountMembersList_eq_sum]
    · simp [EntryCache.countMembers]

/-- The empty filesystem. -/
def fsEmpty : FS := fun _ => none

/-- A concrete valid 40-hex hash used in concrete evaluations. -/
def h40 : String := "aaaaaaaaaaaaaaaaaaaaaaaaaaaaaaaaaaaaaaaa"

theorem filePath_of_valid (h : String) (hv : isValidHash h = true) :
    filePath h = some (casPath h) := by
  simp [filePath, casPath, hv]

/-- Claim C1, counterexample: a reader that produces one byte and then fails
makes `AddEntry` return a failure that is not "already exists", yet a file
holding the partial byte is present at `cas/<h[:3]>/<h[3:]>`; the add is not
all-or-nothing. -/
theorem addEntry_not_atomic :
    (AddEntry fsEmpty ⟨[1], true⟩ h40).1 = .copyFailed
    ∧ (AddEntry fsEmpty ⟨[1], true⟩ h40).1 ≠ .alreadyExists
    ∧ (AddEntry fsEmpty ⟨[1], true⟩ h40).2 (casPath h40) = some [1] := by
  refine ⟨by decide, by decide, by decide⟩

/-- Claim C1, amended: for a valid hash `h`, if `h` was absent then the file at
`cas/<h[:3]>/<h[3:]>` afterwards contains exactly the bytes the reader
produced — so on success exactly the bytes of `r` — and a reader failure
during the copy returns the copy error while leaving those partially-read
bytes in place; if `h` was already present, `AddEntry` fails with "already
exists" and the store is completely unchanged. -/
theorem addEntry_spec (fs : FS) (r : ByteSource) (h : String)
    (hv : isValidHash h = true) :
    (fs (casPath h) = none →
       (AddEntry fs r h).2 (casPath h) = some r.data
       ∧ (r.fails = false → (AddEntry fs r h).1 = .ok)
       ∧ (r.fails = true → (AddEntry fs r h).1 = .copyFailed))
    ∧ ((fs (casPath h)).isSome = true →
       AddEntry fs r h = (.alreadyExists, fs)) := by
  have hfp : filePath h = some (casPath h) := filePath_of_valid h hv
  constructor
  · intro habs
    refine ⟨?_, ?_, ?_⟩ <;>
      cases hr : r.fails <;>
        simp_all [AddEntry, hfp, habs, fsWrite]
  · intro hsome
    obtain ⟨b, hb⟩ := Option.isSome_iff_exists.mp hsome
    simp [AddEntry, hfp, hb]

/-- Witness for `addEntry_spec` at a concrete store, reader and hash. -/
theorem addEntry_spec_witness :
    (AddEntry fsEmpty ⟨[2, 3], false⟩ h40).2 (casPath h40) = some [2, 3]
    ∧ (AddEntry fsEmpty ⟨[2, 3], false⟩ h40).1 = .ok := by
  obtain ⟨h1, -⟩ := addEntry_spec fsEmpty ⟨[2, 3], false⟩ h40 (by decide)
  obtain ⟨ha, hb, -⟩ := h1 rfl
  exact ⟨ha, hb rfl⟩

/-- Claim C4: `AddBytes` is idempotent: after a first successful add of buffer
`b`, repeating the call returns the same hash, the underlying add reports
"already exists", and the store (in particular the stored object's bytes) is
unchanged from the first call. -/
theorem addBytes_idempotent (sha1 : List Nat → String) (fs : FS) (b : List Nat)
    (hv : isValidHash (sha1 b) = true)
    (habs : fs (casPath (sha1 b)) = none) :
    (AddBytes sha1 fs b).1 = (AddBytes sha1 (AddBytes sha1 fs b).2.2 b).1
    ∧ (AddBytes sha1 fs b).2.1 = .ok
    ∧ (AddBytes sha1 (AddBytes sha1 fs b).2.2 b).2.1 = .alreadyExists
    ∧ (AddBytes sha1 (AddBytes sha1 fs b).2.2 b).2.2 = (AddBytes sha1 fs b).2.2
    ∧ (AddBytes sha1 fs b).2.2 (casPath (sha1 b)) = some b := by
  have hfp : filePath (sha1 b) = some (casPath (sha1 b)) :=
    filePath_of_valid _ hv
  refine ⟨rfl, ?_, ?_, ?_, ?_⟩ <;>
    simp [AddBytes, AddEntry, hfp, habs, fsWrite]

/-- Witness for `addBytes_idempotent` at a concrete store and buffer. -/
theorem addBytes_idempotent_witness :
    (AddBytes (fun _ => h40) fsEmpty [5]).2.1 = .ok
    ∧ (AddBytes (fun _ => h40)
        (AddBytes (fun _ => h40) fsEmpty [5]).2.2 [5]).2.1 = .alreadyExists
    ∧ (AddBytes (fun _ => h40) fsEmpty [5]).2.2 (casPath h40) = some [5] := by
  obtain ⟨-, h2, h3, -, h5⟩ :=
    addBytes_idempotent (fun _ => h40) fsEmpty [5] (by decide) rfl
  exact ⟨h2, h3, h5⟩

/-- Result of a full CAS enumeration: the yielded items, the relative paths
moved to `cas/trash/` (in the order `trash.Move` was called), and the fsck
flag (`need_fsck` present). -/
structure EnumResult where
  items : List String
  trashed : List String
  fsck : Bool
  deriving Repr, DecidableEq

/-- Inner loop of `casTable.Enumerate` (part_026 lines 145-152): each file of a
valid bucket whose name fails `^[a-f0-9]{37}$` is moved to trash and the fsck
bit set; valid files are yielded as `prefix + item`. -/
def enumFiles (p : String) (files : List String) (acc : EnumResult) : EnumResult :=
  match files with
  | [] => acc
  | f :: rest =>
    if matchesHex 37 f then
      enumFiles p rest { acc with items := acc.items ++ [p ++ f] }
    else
      enumFiles p rest
        { acc with trashed := acc.trashed ++ [p ++ "/" ++ f], fsck := true }

/-- Outer loop of `casTable.Enumerate` (part_026 lines 124-153): the directory
named `trash` is skipped; any other name failing `^[a-f0-9]{3}$` is moved to
trash and the fsck bit set; valid buckets are scanned with `enumFiles`. The
model assumes an uninterrupted run in which every directory read succeeds. -/
def enumDirs (dirs : List (String × List String)) (acc : EnumResult) : EnumResult :=
  match dirs with
  | [] => acc
  | (p, files) :: rest =>
    if p = "trash" then enumDirs rest acc
    else if matchesHex 3 p then enumDirs rest (enumFiles p files acc)
    else enumDirs rest { acc with trashed := acc.trashed ++ [p], fsck := true }

/-- `casTable.Enumerate` over the listing of `cas/`, starting from an empty
result. -/
def casEnumerate (dirs : List (String × List String)) : EnumResult :=
  enumDirs dirs ⟨[], [], false⟩

/-- Spec-side description of the yielded items: for every non-trash valid
bucket, its valid files as `prefix + suffix`. -/
def specItems (dirs : List (String × List String)) : List String :=
  dirs.flatMap fun d =>
    if d.1 = "trash" then []
    else if matchesHex 3 d.1 then (d.2.filter (matchesHex 37)).map (d.1 ++ ·)
    else []

/-- Spec-side description of the quarantined paths. -/
def specTrashed (dirs : List (String × List String)) : List String :=
  dirs.flatMap fun d =>
    if d.1 = "trash" then []
    else if matchesHex 3 d.1 then
      (d.2.filter (fun f => !matchesHex 37 f)).map (fun f => d.1 ++ "/" ++ f)
    else [d.1]

/-- Spec-side description of the final fsck flag: set iff something invalid
was encountered. -/
def specFsck (dirs : List (String × List String)) : Bool :=
  dirs.any fun d =>
    if d.1 = "trash" then false
    else if matchesHex 3 d.1 then d.2.any (fun f => !matchesHex 37 f)
    else true

theorem enumFiles_eq (p : String) (files : List String) (acc : EnumResult) :
    enumFiles p files acc =
      ⟨acc.items ++ (files.filter (matchesHex 37)).map (p ++ ·),
       acc.trashed
         ++ (files.filter (fun f => !matchesHex 37 f)).map (fun f => p ++ "/" ++ f),
       acc.fsck || files.any (fun f => !matchesHex 37 f)⟩ := by
  induction files generalizing acc with
  | nil => simp [enumFiles]
  | cons f rest ih =>
    by_cases hf : matchesHex 37 f = true <;>
      simp [enumFiles, hf, ih, Bool.or_assoc]

theorem enumDirs_eq (dirs : List (String × List String)) (acc : EnumResult) :
    enumDirs dirs acc =
      ⟨acc.items ++ specItems dirs,
       acc.trashed ++ specTrashed dirs,
       acc.fsck || specFsck dirs⟩ := by
  induction dirs generalizing acc with
  | nil => simp [enumDirs, specItems, specTrashed, specFsck]
  | cons d rest ih =>
    obtain ⟨p, files⟩ := d
    by_cases hp : p = "trash"
    · simp [enumDirs, hp, ih, specItems, specTrashed, specFsck]
    · by_cases hm : matchesHex 3 p = true
      · simp [enumDirs, hp, hm, ih, enumFiles_eq, specItems, specTrashed,
          specFsck, Bool.or_assoc]
      · simp [enumDirs, hp, hm, ih, specItems, specTrashed, specFsck,
          Bool.or_assoc]

theorem length_of_matchesHex {n : Nat} {s : String} (h : matchesHex n s = true) :
    s.length = n := by
  simp [matchesHex] at h
  exact h.1

theorem string_append_inj {p q f g : String} (h : p ++ f = q ++ g)
    (hl : p.length = q.length) : p = q ∧ f = g := by
  have hd : p.data ++ f.data = q.data ++ g.data := by
    have hc := congrArg String.data h
    simpa using hc
  have h2 := List.append_inj hd hl
  exact ⟨String.ext h2.1, String.ext h2.2⟩

theorem mem_specItems {x : String} {dirs : List (String × List String)} :
    x ∈ specItems dirs ↔
      ∃ p files, (p, files) ∈ dirs ∧ p ≠ "trash" ∧ matchesHex 3 p = true
        ∧ ∃ f ∈ files, matchesHex 37 f = true ∧ x = p ++ f := by
  constructor
  · intro hx
    rw [specItems, List.mem_flatMap] at hx
    obtain ⟨d, hd, hxd⟩ := hx
    split_ifs at hxd with h1 h2
    · simp at hxd
    · simp only [List.mem_map, List.mem_filter] at hxd
      obtain ⟨f, ⟨hf, h37⟩, hx⟩ := hxd
      exact ⟨d.1, d.2, by simpa using hd, h1, h2, f, hf, h37, hx.symm⟩
    · simp at hxd
  · rintro ⟨p, files, hd, h1, h2, f, hf, h37, rfl⟩
    rw [specItems, List.mem_flatMap]
    refine ⟨(p, files), hd, ?_⟩
    simp [List.mem_map, List.mem_filter, h1, h2]
    exact ⟨f, ⟨hf, h37⟩, rfl⟩

theorem count_specItems (dirs : List (String × List String))
    (hnd : (dirs.map Prod.fst).Nodup)
    (hnf : ∀ d ∈ dirs, (d.2 : List String).Nodup)
    (p : String) (files : List String) (f : String)
    (hd : (p, files) ∈ dirs) (hp : matchesHex 3 p = true)
    (hf : f ∈ files) (h37 : matchesHex 37 f = true) :
    (specItems dirs).count (p ++ f) = 1 := by
  induction dirs with
  | nil => simp at hd
  | cons d rest ih =>
    obtain ⟨q, gs⟩ := d
    have hspec : specItems ((q, gs) :: rest)
        = (if q = "trash" then []
           else if matchesHex 3 q then
             (gs.filter (matchesHex 37)).map (q ++ ·)
           else []) ++ specItems rest := by
      simp [specItems]
    rw [hspec, List.count_append]
    simp only [List.map_cons, List.nodup_cons] at hnd
    rcases List.mem_cons.mp hd with hdh | hdt
    · -- the dir containing f is the head
      obtain ⟨rfl, rfl⟩ : p = q ∧ files = gs := by
        injection hdh with ha hb
        exact ⟨ha, hb⟩
      have hptr : p ≠ "trash" := by
        intro hcon
        rw [hcon] at hp
        exact absurd (length_of_matchesHex hp) (by decide)
      rw [if_neg hptr, if_pos hp]
      have hinj : Function.Injective (p ++ ·) := by
        intro a b hab
        exact (string_append_inj hab rfl).2
      have hcount1 :
          ((files.filter (matchesHex 37)).map (p ++ ·)).count (p ++ f) = 1 := by
        rw [List.count_map_of_injective _ _ hinj]
        exact List.count_eq_one_of_mem
          ((hnf (p, files) hd).filter _) (List.mem_filter.mpr ⟨hf, h37⟩)
      have hcount2 : (specItems rest).count (p ++ f) = 0 := by
        rw [List.count_eq_zero]
        intro hmem
        obtain ⟨q', gs', hqrest, hqtr, hq3, g, hg, hg37, heq⟩ :=
          mem_specItems.mp hmem
        have hpq : p = q' :=
          (string_append_inj heq
            (by rw [length_of_matchesHex hp, length_of_matchesHex hq3])).1
        apply hnd.1
        rw [hpq]
        exact List.mem_map.mpr ⟨(q', gs'), hqrest, rfl⟩
      rw [hcount1, hcount2]
    · -- the dir containing f is in the tail
      have hcount2 : (specItems rest).count (p ++ f) = 1 :=
        ih hnd.2 (fun e he => hnf e (List.mem_cons_of_mem _ he)) hdt
      have hcount1 :
          ((if q = "trash" then []
            else if matchesHex 3 q then
              (gs.filter (matchesHex 37)).map (q ++ ·)
            else []).count (p ++ f)) = 0 := by
        split_ifs with h1 h2
        · simp
        · rw [List.count_eq_zero]
          intro hmem
          simp only [List.mem_map, List.mem_filter] at hmem
          obtain ⟨g, ⟨hg, hg37⟩, heq⟩ := hmem
          have hpq : p = q :=
            (string_append_inj heq.symm
              (by rw [length_of_matchesHex h2, length_of_matchesHex hp])).1
          apply hnd.1
          rw [← hpq]
          exact List.mem_map.mpr ⟨(p, files), hdt, rfl⟩
        · simp
      rw [hcount1, hcount2]

/-- Claim C7, counterexample: the directory named `trash` under `cas/` does
not match the 3-hex-character prefix pattern, yet enumeration skips it without
moving it to trash and without setting the fsck flag — so "every directory
name not matching the pattern is moved to cas/trash/ and the fsck flag is set"
fails on the `trash` directory itself. -/
theorem casEnumerate_skips_trash :
    matchesHex 3 "trash" = false
    ∧ (casEnumerate [("trash", ["zzz"])]).trashed = []
    ∧ (casEnumerate [("trash", ["zzz"])]).fsck = false := by
  refine ⟨by decide, by decide, by decide⟩

/-- Claim C7, amended: during CAS enumeration, every directory name under
`cas/` other than the `trash` directory itself that does not match the
3-hex-character prefix pattern, and every file inside a valid bucket whose
name does not match the remaining 37-hex-character pattern, is moved to
`cas/trash/` and the fsck flag is set, and enumeration continues; valid
entries are each yielded exactly once as prefix+suffix (for a filesystem
listing, i.e. distinct directory names with distinct file names inside
each). -/
theorem casEnumerate_spec (dirs : List (String × List String))
    (hnd : (dirs.map Prod.fst).Nodup)
    (hnf : ∀ d ∈ dirs, (d.2 : List String).Nodup) :
    (∀ p files, (p, files) ∈ dirs → p ≠ "trash" → matchesHex 3 p = false →
       p ∈ (casEnumerate dirs).trashed ∧ (casEnumerate dirs).fsck = true)
    ∧ (∀ p files, (p, files) ∈ dirs → p ≠ "trash" → matchesHex 3 p = true →
       ∀ f ∈ files, matchesHex 37 f = false →
         (p ++ "/" ++ f) ∈ (casEnumerate dirs).trashed
         ∧ (casEnumerate dirs).fsck = true)
    ∧ (∀ p files, (p, files) ∈ dirs → p ≠ "trash" → matchesHex 3 p = true →
       ∀ f ∈ files, matchesHex 37 f = true →
         (casEnumerate dirs).items.count (p ++ f) = 1) := by
  have hrun : casEnumerate dirs
      = ⟨specItems dirs, specTrashed dirs, specFsck dirs⟩ := by
    rw [casEnumerate, enumDirs_eq]
    simp
  refine ⟨?_, ?_, ?_⟩
  · intro p files hd hptr hpm
    rw [hrun]
    constructor
    · rw [specTrashed, List.mem_flatMap]
      exact ⟨(p, files), hd, by simp [hptr, hpm]⟩
    · rw [specFsck, List.any_eq_true]
      exact ⟨(p, files), hd, by simp [hptr, hpm]⟩
  · intro p files hd hptr hpm f hfm hf37
    rw [hrun]
    constructor
    · rw [specTrashed, List.mem_flatMap]
      refine ⟨(p, files), hd, ?_⟩
      simp only [hptr, hpm, if_false, if_true, List.mem_map, List.mem_filter]
      exact ⟨f, ⟨hfm, by simp [hf37]⟩, rfl⟩
    · rw [specFsck, List.any_eq_true]
      refine ⟨(p, files), hd, ?_⟩
      simp only [hptr, hpm, if_false, if_true, List.any_eq_true]
      exact ⟨f, hfm, by simp [hf37]⟩
  · intro p files hd hptr hpm f hfm hf37
    rw [hrun]
    exact count_specItems dirs hnd hnf p files f hd hpm hfm hf37

/-- Witness for `casEnumerate_spec` on a concrete `cas/` listing containing a
bad bucket name, a bad file name and a valid object. -/
theorem casEnumerate_spec_witness :
    "bad!" ∈ (casEnumerate
        [("bad!", []), ("aaa", ["zz", String.mk (List.replicate 37 'a')])]).trashed
    ∧ ("aaa" ++ "/" ++ "zz") ∈ (casEnumerate
        [("bad!", []), ("aaa", ["zz", String.mk (List.replicate 37 'a')])]).trashed
    ∧ (casEnumerate
        [("bad!", []), ("aaa", ["zz", String.mk (List.replicate 37 'a')])]).items.count
        ("aaa" ++ String.mk (List.replicate 37 'a')) = 1 := by
  obtain ⟨h1, h2, h3⟩ := casEnumerate_spec
    [("bad!", []), ("aaa", ["zz", String.mk (List.replicate 37 'a')])]
    (by decide) (by decide)
  refine ⟨(h1 "bad!" [] (by simp) (by decide) (by decide)).1, ?_, ?_⟩
  · exact (h2 "aaa" ["zz", String.mk (List.replicate 37 'a')] (by simp)
      (by decide) (by decide) "zz" (by simp) (by decide)).1
  · exact h3 "aaa" ["zz", String.mk (List.replicate 37 'a')] (by simp)
      (by decide) (by decide) (String.mk (List.replicate 37 'a'))
      (by simp) (by decide)

/-- Result of `fsckRun.main`'s CAS pass (fsck.go lines 39-72): the `corrupted`
counter, the objects moved to trash via `cas.Remove`, and the fsck flag after
`ClearFsckBit` runs on completion. -/
structure FsckResult where
  corrupted : Nat
  removed : List String
  fsckFlag : Bool
  deriving Repr, DecidableEq

/-- CAS-pass loop of `fsckRun.main`: each enumerated item is re-opened and
streamed through SHA-1 (`sha1Reader`); when the recomputed digest differs from
the item's name, `corrupted` is incremented and the object is removed (moved
to trash). The store is given as the enumerated (name, contents) pairs; the
model assumes every open and read succeeds (a read failure aborts the pass in
the source). -/
def fsckCasLoop (sha1 : List Nat → String) (store : List (String × List Nat))
    (corrupted : Nat) (removed : List String) : Nat × List String :=
  match store with
  | [] => (corrupted, removed)
  | (name, content) :: rest =>
    if sha1 content = name then fsckCasLoop sha1 rest corrupted removed
    else fsckCasLoop sha1 rest (corrupted + 1) (removed ++ [name])

/-- `fsckRun.main`'s CAS pass followed by the unconditional `ClearFsckBit()`
on completion (fsck.go line 113). -/
def fsckCas (sha1 : List Nat → String) (store : List (String × List Nat)) :
    FsckResult :=
  let r := fsckCasLoop sha1 store 0 []
  ⟨r.1, r.2, false⟩

theorem fsckCasLoop_eq (sha1 : List Nat → String)
    (store : List (String × List Nat)) (c : Nat) (rem : List String) :
    fsckCasLoop sha1 store c rem
      = (c + (store.filter (fun p => !(sha1 p.2 == p.1))).length,
         rem ++ (store.filter (fun p => !(sha1 p.2 == p.1))).map Prod.fst) := by
  induction store generalizing c rem with
  | nil => simp [fsckCasLoop]
  | cons x rest ih =>
    obtain ⟨name, content⟩ := x
    by_cases h : sha1 content = name <;>
      simp [fsckCasLoop, h, ih, Nat.add_assoc, Nat.add_comm 1]

/-- Claim C3: during fsck's CAS pass, every enumerated item whose recomputed
SHA-1 differs from its name is moved to trash and the corrupted count is
incremented (the removals and the count are exactly the mismatching items);
on completion the fsck flag is cleared; and on a store with no corruption,
fsck moves nothing to trash and leaves the fsck flag clear. -/
theorem fsckCas_spec (sha1 : List Nat → String)
    (store : List (String × List Nat)) :
    (fsckCas sha1 store).removed
        = (store.filter (fun p => !(sha1 p.2 == p.1))).map Prod.fst
    ∧ (fsckCas sha1 store).corrupted
        = (store.filter (fun p => !(sha1 p.2 == p.1))).length
    ∧ (fsckCas sha1 store).fsckFlag = false
    ∧ ((∀ p ∈ store, sha1 p.2 = p.1) →
        (fsckCas sha1 store).removed = [] ∧ (fsckCas sha1 store).corrupted = 0) := by
  have hloop := fsckCasLoop_eq sha1 store 0 []
  have hclean : (∀ p ∈ store, sha1 p.2 = p.1) →
      (store.filter (fun p => !(sha1 p.2 == p.1))) = [] := by
    intro hall
    rw [List.filter_eq_nil_iff]
    intro p hp
    simp [hall p hp]
  refine ⟨?_, ?_, rfl, ?_⟩
  · simp [fsckCas, hloop]
  · simp [fsckCas, hloop]
  · intro hall
    constructor
    · simp [fsckCas, hloop, hclean hall]
    · simp [fsckCas, hloop, hclean hall]

/-- Witness for `fsckCas_spec`: an uncorrupted two-object store is left
untouched with a clear fsck flag, and a store with one corrupted object has
exactly that object removed. -/
theorem fsckCas_spec_witness :
    ((fsckCas (fun _ => "good") [("good", [1])]).removed = []
      ∧ (fsckCas (fun _ => "good") [("good", [1])]).corrupted = 0)
    ∧ (fsckCas (fun _ => "good") [("good", [1])]).fsckFlag = false := by
  obtain ⟨-, -, h3, h4⟩ := fsckCas_spec (fun _ => "good") [("good", [1])]
  exact ⟨h4 (by decide), h3⟩

/-- An item produced by the archive enumerator: on-disk size, mtime in Unix
seconds, and the file's byte contents (read only when hashing). -/
structure InputItem where
  size : Int
  modTime : Int
  content : List Nat

/-- `updateFile` (archive.go lines 44-63): if the cached (size, timestamp)
exactly match the item's on-disk (size, mtime), only `LastTested` is bumped
and `(false, nil)` is returned without touching the file; otherwise the file
is read and hashed (`sha1FilePath`) and the record's sha1, size, timestamp and
`LastTested` are all updated, returning `(true, nil)`. The result is
`(wasHashed, updated record, whether the file's contents were read)`;
the model assumes the read succeeds (a failure returns the error and changes
nothing). -/
def updateFile (sha1 : List Nat → String) (now : Int) (cache : EntryCache)
    (item : InputItem) : Bool × EntryCache × Bool :=
  if cache.size = item.size ∧ cache.timestamp = item.modTime then
    (false, .mk cache.sha1 cache.size cache.timestamp now cache.files, false)
  else
    let digest := sha1 item.content
    (true, .mk digest item.size item.modTime now cache.files, true)

/-- The archive pipeline counters touched by the hasher stage. -/
structure HashStats where
  nbHashed : Int
  bytesHashed : Int
  nbNotHashed : Int
  bytesNotHashed : Int
  deriving Repr, DecidableEq

/-- Counter update in `Stats.hashInputs` (archive.go lines 269-277): a hashed
item bumps `nbHashed`/`bytesHashed`, a cache hit bumps
`nbNotHashed`/`bytesNotHashed`. -/
def hashStep (stats : HashStats) (wasHashed : Bool) (size : Int) : HashStats :=
  if wasHashed then
    { stats with nbHashed := stats.nbHashed + 1,
                 bytesHashed := stats.bytesHashed + size }
  else
    { stats with nbNotHashed := stats.nbNotHashed + 1,
                 bytesNotHashed := stats.bytesNotHashed + size }

/-- Claim C5: if the cached (size, mtime) exactly equal the file's on-disk
(size, mtime), the cached sha1 is reused, last_tested is bumped, the contents
are not read and the "not hashed" counters advance; any deviation forces a
rehash that updates the record's sha1, size, timestamp and last_tested, with
the "hashed" counters advancing. -/
theorem updateFile_spec (sha1 : List Nat → String) (now : Int)
    (cache : EntryCache) (item : InputItem) (stats : HashStats) :
    (cache.size = item.size ∧ cache.timestamp = item.modTime →
       (updateFile sha1 now cache item).1 = false
       ∧ (updateFile sha1 now cache item).2.1.sha1 = cache.sha1
       ∧ (updateFile sha1 now cache item).2.1.lastTested = now
       ∧ (updateFile sha1 now cache item).2.1.size = cache.size
       ∧ (updateFile sha1 now cache item).2.1.timestamp = cache.timestamp
       ∧ (updateFile sha1 now cache item).2.2 = false
       ∧ hashStep stats (updateFile sha1 now cache item).1 item.size
           = { stats with nbNotHashed := stats.nbNotHashed + 1,
                          bytesNotHashed := stats.bytesNotHashed + item.size })
    ∧ (¬(cache.size = item.size ∧ cache.timestamp = item.modTime) →
       (updateFile sha1 now cache item).1 = true
       ∧ (updateFile sha1 now cache item).2.1.sha1 = sha1 item.content
       ∧ (updateFile sha1 now cache item).2.1.size = item.size
       ∧ (updateFile sha1 now cache item).2.1.timestamp = item.modTime
       ∧ (updateFile sha1 now cache item).2.1.lastTested = now
       ∧ (updateFile sha1 now cache item).2.2 = true
       ∧ hashStep stats (updateFile sha1 now cache item).1 item.size
           = { stats with nbHashed := stats.nbHashed + 1,
                          bytesHashed := stats.bytesHashed + item.size }) := by
  obtain ⟨s, z, t, u, fl⟩ := cache
  simp only [EntryCache.size, EntryCache.timestamp] at *
  constructor
  · intro hmatch
    simp [updateFile, hmatch, hashStep, EntryCache.sha1, EntryCache.size,
      EntryCache.timestamp, EntryCache.lastTested, EntryCache.files]
  · intro hmiss
    simp [updateFile, hmiss, hashStep, EntryCache.sha1, EntryCache.size,
      EntryCache.timestamp, EntryCache.lastTested, EntryCache.files]

/-- Witness for `updateFile_spec`: a cache hit reuses the sha1 without a read,
and a size deviation forces the rehash. -/
theorem updateFile_spec_witness :
    ((updateFile (fun _ => "h2") 99 (.mk "h1" 5 7 0 []) ⟨5, 7, [1]⟩).1 = false
      ∧ (updateFile (fun _ => "h2") 99 (.mk "h1" 5 7 0 []) ⟨5, 7, [1]⟩).2.1.sha1 = "h1"
      ∧ (updateFile (fun _ => "h2") 99 (.mk "h1" 5 7 0 []) ⟨5, 7, [1]⟩).2.2 = false)
    ∧ ((updateFile (fun _ => "h2") 99 (.mk "h1" 5 7 0 []) ⟨6, 7, [1]⟩).1 = true
      ∧ (updateFile (fun _ => "h2") 99 (.mk "h1" 5 7 0 []) ⟨6, 7, [1]⟩).2.1.sha1 = "h2") := by
  obtain ⟨h1, -⟩ :=
    updateFile_spec (fun _ => "h2") 99 (.mk "h1" 5 7 0 []) ⟨5, 7, [1]⟩
      ⟨0, 0, 0, 0⟩
  obtain ⟨-, h2⟩ :=
    updateFile_spec (fun _ => "h2") 99 (.mk "h1" 5 7 0 []) ⟨6, 7, [1]⟩
      ⟨0, 0, 0, 0⟩
  obtain ⟨a1, a2, -, -, -, a6, -⟩ := h1 (by constructor <;> rfl)
  obtain ⟨b1, b2, -⟩ := h2 (by intro h; exact absurd h.1 (by decide))
  exact ⟨⟨a1, a2, a6⟩, b1, b2⟩

/-- Outcome of `cache.Close` (dumbcaslib/cache_local.go lines 101-115). -/
inductive CloseResult where
  | ok
  | writeFailed
  | anomaly
  deriving DecidableEq, Repr

/-- `cache.Close`: with an empty file path nothing is written and `nil` is
returned; otherwise `encode` rewrites the whole tree to the cache file
(truncate + write of the gob serialization, abstracted as `encoded`, `none`
meaning the encoder or the open failed); the rewritten file is then stat'ed
and a size below 100 bytes is reported as a serialization anomaly. -/
def cacheClose (cachePath : String) (encoded : Option (List Nat)) (fs : FS) :
    CloseResult × FS :=
  if cachePath = "" then (.ok, fs)
  else
    match encoded with
    | none => (.writeFailed, fs)
    | some bytes =>
      let fs' := fsWrite fs cachePath bytes
      if bytes.length < 100 then (.anomaly, fs') else (.ok, fs')

/-- Claim C9: on close, the whole serialized cache tree is rewritten to the
cache file; close reports an error whenever the rewrite fails to produce a
non-trivially-sized file (the write failing, or the result smaller than the
100-byte threshold), and never reports the size anomaly when the
serialization is of non-trivial size. -/
theorem cacheClose_spec (cachePath : String) (encoded : Option (List Nat))
    (fs : FS) (hne : cachePath ≠ "") :
    (∀ bytes, encoded = some bytes →
       (cacheClose cachePath encoded fs).2 cachePath = some bytes
       ∧ ((cacheClose cachePath encoded fs).1 = .anomaly ↔ bytes.length < 100))
    ∧ (encoded = none → (cacheClose cachePath encoded fs).1 = .writeFailed) := by
  constructor
  · rintro bytes rfl
    by_cases h : bytes.length < 100 <;>
      simp [cacheClose, hne, fsWrite, h]
  · rintro rfl
    simp [cacheClose, hne]

/-- Witness for `cacheClose_spec`: a 100-byte serialization is written in full
and reports no anomaly; a 3-byte one is an anomaly. -/
theorem cacheClose_spec_witness :
    (cacheClose "cache.gob" (some (List.replicate 100 7)) fsEmpty).2 "cache.gob"
        = some (List.replicate 100 7)
    ∧ (cacheClose "cache.gob" (some (List.replicate 100 7)) fsEmpty).1 ≠ .anomaly
    ∧ (cacheClose "cache.gob" (some [1, 2, 3]) fsEmpty).1 = .anomaly := by
  obtain ⟨h1, -⟩ := cacheClose_spec "cache.gob" (some (List.replicate 100 7))
    fsEmpty (by decide)
  obtain ⟨h2, -⟩ := cacheClose_spec "cache.gob" (some [1, 2, 3])
    fsEmpty (by decide)
  obtain ⟨ha, hb⟩ := h1 _ rfl
  obtain ⟨-, hd⟩ := h2 _ rfl
  refine ⟨ha, ?_, hd.mpr (by decide)⟩
  intro hcon
  exact absurd (hb.mp hcon) (by decide)

mutual

/-- The hashes marked by `TagRecurse` (gc.go lines 25-32) inside one entry
tree: the node's sha1 when non-empty, plus everything in its children. -/
def Entry.treeHashes : Entry → List String
  | .mk sha1 _ files => (if sha1 = "" then [] else [sha1]) ++ treeHashesList files

/-- Hashes of a list of child entries. -/
def treeHashesList : List (String × Entry) → List String
  | [] => []
  | (_, e) :: rest => Entry.treeHashes e ++ treeHashesList rest

end

/-- Go map assignment `m[k] = v` on an association-list model: update the
existing key in place or append a new binding. -/
def setKey : List (String × Bool) → String → Bool → List (String × Bool)
  | [], k, v => [(k, v)]
  | (k', v') :: t, k, v =>
    if k' = k then (k, v) :: t else (k', v') :: setKey t k v

mutual

/-- `TagRecurse` (gc.go lines 25-32): if the entry's sha1 is non-empty set
`entries[sha1] = true`, then recurse into every child. -/
def tagRecurse (m : List (String × Bool)) : Entry → List (String × Bool)
  | .mk sha1 _ files =>
    tagList (if sha1 = "" then m else setKey m sha1 true) files

/-- The loop `for _, i := range entry.Files { TagRecurse(entries, i) }`. -/
def tagList (m : List (String × Bool)) : List (String × Entry) → List (String × Bool)
  | [] => m
  | (_, e) :: rest => tagList (tagRecurse m e) rest

end

/-- `Item` (cas.go lines 105-109): the message type of the channel-based
`CasTable.Enumerate` consumed by `gcMain`. Each message sent in practice sets
at most one field (`Item` for a valid hash, `Invalid` for a quarantine
notice, `Error` for a read failure — modelled as a flag), and the zero value
`Item{}` is the termination sentinel. -/
structure ItemMsg where
  item : String
  invalid : String
  error : Bool
  deriving DecidableEq, Repr

/-- The message sequence produced by `CasTable.Enumerate` (cas.go lines
112-147): a junk directory name under `cas/` yields `Item{Invalid:
cas/<name>}` (the fsck flag is also set) and enumeration continues; inside a
valid bucket a junk file name likewise yields an `Invalid` message and a
valid file yields `Item{Item: prefix+suffix}`; the zero `Item{}` is sent
last. Directory reads are assumed to succeed (a failure emits an `Error`
message instead); the listing order stands in for the filesystem-defined
enumeration order. -/
def enumerateItems (dirs : List (String × List String)) : List ItemMsg :=
  (dirs.flatMap fun d =>
    if !matchesHex 3 d.1 then [ItemMsg.mk "" ("cas/" ++ d.1) false]
    else d.2.map fun f =>
      if !matchesHex 37 f then ItemMsg.mk "" ("cas/" ++ d.1 ++ "/" ++ f) false
      else ItemMsg.mk (d.1 ++ f) "" false)
  ++ [ItemMsg.mk "" "" false]

/-- The enumeration-consuming loop of `gcMain` (gc.go lines 48-58): a message
with a non-empty `Item` registers the hash as unmarked; a message carrying an
error aborts GC with an error (`none`); any other message — the `Item{}`
sentinel, but equally every `Item{Invalid: ...}` quarantine notice, whose
`Item` field is empty and whose `Error` is nil — makes the loop `break`, and
the rest of the enumeration is never read. -/
def gcRegister (m : List (String × Bool)) : List ItemMsg → Option (List (String × Bool))
  | [] => some m
  | msg :: rest =>
    if msg.item ≠ "" then gcRegister (setKey m msg.item false) rest
    else if msg.error then none
    else some m

/-- `gcMain` (gc.go lines 34-110): build the `entries` map from the
enumeration message stream with `gcRegister`; then for every node (given as
its decoded `Node.Entry` hash together with the `Entry` tree loaded from the
CAS — a load failure aborts GC and is not modelled) set
`entries[node.Entry] = true` and `TagRecurse` the tree; finally collect every
key still `false` as an orphan and remove each (move to trash). Returns the
removed hashes, or `none` when enumeration reported an error. The source
reuses one `Node`/`Entry` struct across decode iterations, which can only
re-mark hashes already marked from earlier nodes and therefore yields the
same marked set as the fresh decode modelled here. -/
def gcMain (stream : List ItemMsg) (nodes : List (String × Entry)) :
    Option (List String) :=
  match gcRegister [] stream with
  | none => none
  | some m0 =>
    let m := nodes.foldl (fun m nd => tagRecurse (setKey m nd.1 true) nd.2) m0
    some ((m.filter fun p => !p.2).map Prod.fst)

/-- A hash is reachable from a node when it is the node's entry hash or occurs
as some sha1 in the node's entry tree. -/
def reachable (nodes : List (String × Entry)) (h : String) : Prop :=
  ∃ nd ∈ nodes, h = nd.1 ∨ h ∈ nd.2.treeHashes

theorem lookup_setKey (m : List (String × Bool)) (k : String) (v : Bool)
    (k' : String) :
    (setKey m k v).lookup k' = if k' = k then some v else m.lookup k' := by
  induction m with
  | nil =>
    by_cases h : k' = k
    · simp [setKey, List.lookup, h]
    · have hb : (k' == k) = false := beq_eq_false_iff_ne.mpr h
      simp [setKey, List.lookup, h, hb]
  | cons x t ih =>
    obtain ⟨k'', v''⟩ := x
    by_cases h1 : k'' = k
    · subst h1
      by_cases h2 : k' = k''
      · simp [setKey, List.lookup, h2]
      · have hb : (k' == k'') = false := beq_eq_false_iff_ne.mpr h2
        simp [setKey, List.lookup, h2, hb]
    · by_cases h2 : k' = k''
      · subst h2
        simp [setKey, h1, List.lookup]
      · have hb : (k' == k'') = false := beq_eq_false_iff_ne.mpr h2
        simp [setKey, h1, List.lookup, hb, h2, ih]

theorem lookup_casFold (cas : List String) (m : List (String × Bool))
    (h : String) :
    ((cas.foldl (fun m x => setKey m x false) m).lookup h)
      = if h ∈ cas then some false else m.lookup h := by
  induction cas generalizing m with
  | nil => simp
  | cons a t ih =>
    simp only [List.foldl_cons, ih, lookup_setKey]
    by_cases h1 : h ∈ t
    · simp [h1]
    · by_cases h2 : h = a <;> simp [h1, h2]

mutual

theorem lookup_tagRecurse (m : List (String × Bool)) (e : Entry) (h : String) :
    (tagRecurse m e).lookup h
      = if h ∈ e.treeHashes then some true else m.lookup h := by
  match e with
  | .mk sha1 size files =>
    rw [tagRecurse, lookup_tagList]
    by_cases hs : sha1 = ""
    · simp [Entry.treeHashes, hs]
    · by_cases hf : h ∈ treeHashesList files
      · simp [Entry.treeHashes, hs, hf]
      · by_cases hh : h = sha1 <;>
          simp [Entry.treeHashes, hs, hf, hh, lookup_setKey]

theorem lookup_tagList (m : List (String × Bool))
    (l : List (String × Entry)) (h : String) :
    (tagList m l).lookup h
      = if h ∈ treeHashesList l then some true else m.lookup h := by
  match l with
  | [] => simp [tagList, treeHashesList]
  | (name, e) :: rest =>
    rw [tagList, lookup_tagList]
    by_cases hr : h ∈ treeHashesList rest
    · simp [treeHashesList, hr]
    · by_cases he : h ∈ e.treeHashes <;>
        simp [treeHashesList, hr, he, lookup_tagRecurse]

end

/-- Every hash marked `true` by the node-processing loop of `gcMain`. -/
def nodesMarks (nodes : List (String × Entry)) : List String :=
  nodes.flatMap fun nd => nd.1 :: nd.2.treeHashes

theorem lookup_nodesFold (nodes : List (String × Entry))
    (m : List (String × Bool)) (h : String) :
    ((nodes.foldl (fun m nd => tagRecurse (setKey m nd.1 true) nd.2) m).lookup h)
      = if h ∈ nodesMarks nodes then some true else m.lookup h := by
  induction nodes generalizing m with
  | nil => simp [nodesMarks]
  | cons nd rest ih =>
    simp only [List.foldl_cons, ih, lookup_tagRecurse, lookup_setKey]
    simp only [nodesMarks, List.flatMap_cons, List.mem_append, List.mem_cons]
    by_cases h1 : h ∈ rest.flatMap fun nd => nd.1 :: nd.2.treeHashes
    · simp [h1]
    · by_cases h2 : h ∈ nd.2.treeHashes
      · simp [h1, h2]
      · by_cases h3 : h = nd.1 <;> simp [h1, h2, h3]

/-- The key list of the association-list map model. -/
def mapKeys (m : List (String × Bool)) : List String := m.map Prod.fst

theorem keys_setKey (m : List (String × Bool)) (k : String) (v : Bool) :
    mapKeys (setKey m k v)
      = if k ∈ mapKeys m then mapKeys m else mapKeys m ++ [k] := by
  induction m with
  | nil => simp [setKey, mapKeys]
  | cons x t ih =>
    obtain ⟨k'', v''⟩ := x
    by_cases h1 : k'' = k
    · subst h1
      simp [setKey, mapKeys]
    · have h2 : ¬(k = k'') := fun hc => h1 hc.symm
      have hl : mapKeys (setKey ((k'', v'') :: t) k v)
          = k'' :: mapKeys (setKey t k v) := by
        simp [setKey, h1, mapKeys]
      have hc : (k ∈ mapKeys ((k'', v'') :: t)) ↔ k ∈ mapKeys t := by
        simp only [mapKeys, List.map_cons, List.mem_cons]
        constructor
        · rintro (h | h)
          · exact absurd h h2
          · exact h
        · exact fun h => Or.inr h
      rw [hl, ih]
      by_cases h3 : k ∈ mapKeys t
      · rw [if_pos h3, if_pos (hc.mpr h3)]
        rfl
      · rw [if_neg h3, if_neg (fun hm => h3 (hc.mp hm))]
        rfl

theorem nodup_keys_setKey {m : List (String × Bool)} (k : String) (v : Bool)
    (hnd : (mapKeys m).Nodup) : (mapKeys (setKey m k v)).Nodup := by
  rw [keys_setKey]
  split_ifs with h
  · exact hnd
  · simp [List.nodup_append, hnd, h]

mutual

theorem nodup_keys_tagRecurse (m : List (String × Bool)) (e : Entry)
    (hnd : (mapKeys m).Nodup) : (mapKeys (tagRecurse m e)).Nodup := by
  match e with
  | .mk sha1 size files =>
    rw [tagRecurse]
    apply nodup_keys_tagList
    split_ifs with h
    · exact hnd
    · exact nodup_keys_setKey _ _ hnd

theorem nodup_keys_tagList (m : List (String × Bool))
    (l : List (String × Entry)) (hnd : (mapKeys m).Nodup) :
    (mapKeys (tagList m l)).Nodup := by
  match l with
  | [] => exact hnd
  | (name, e) :: rest =>
    rw [tagList]
    exact nodup_keys_tagList _ rest (nodup_keys_tagRecurse m e hnd)

end

theorem nodup_keys_gcMap (hashes : List String)
    (nodes : List (String × Entry)) :
    (mapKeys
      (nodes.foldl (fun m nd => tagRecurse (setKey m nd.1 true) nd.2)
        (hashes.foldl (fun m x => setKey m x false) []))).Nodup := by
  have h0 : ∀ (c : List String) (m : List (String × Bool)),
      (mapKeys m).Nodup →
        (mapKeys (c.foldl (fun m x => setKey m x false) m)).Nodup := by
    intro c
    induction c with
    | nil => intro m hm; exact hm
    | cons a t ih => intro m hm; exact ih _ (nodup_keys_setKey _ _ hm)
  have h1 : ∀ (ns : List (String × Entry)) (m : List (String × Bool)),
      (mapKeys m).Nodup →
        (mapKeys
          (ns.foldl (fun m nd => tagRecurse (setKey m nd.1 true) nd.2) m)).Nodup := by
    intro ns
    induction ns with
    | nil => intro m hm; exact hm
    | cons nd rest ih =>
      intro m hm
      exact ih _ (nodup_keys_tagRecurse _ _ (nodup_keys_setKey _ _ hm))
  exact h1 nodes _ (h0 hashes [] (by simp [mapKeys]))

theorem mem_false_keys_iff (m : List (String × Bool))
    (hnd : (mapKeys m).Nodup) (h : String) :
    h ∈ (m.filter (fun p => !p.2)).map Prod.fst ↔ m.lookup h = some false := by
  induction m with
  | nil => simp [List.lookup]
  | cons x t ih =>
    obtain ⟨k, v⟩ := x
    simp only [mapKeys, List.map_cons, List.nodup_cons] at hnd
    have iht := ih hnd.2
    by_cases hh : h = k
    · subst hh
      cases v
      · simp [List.lookup]
      · have hnot : h ∉ (t.filter (fun p => !p.2)).map Prod.fst := by
          intro hmem
          apply hnd.1
          obtain ⟨p, hp, hph⟩ := List.mem_map.mp hmem
          exact hph ▸ List.mem_map.mpr ⟨p, List.mem_of_mem_filter hp, rfl⟩
        simp [List.lookup, hnot]
    · have hb : (h == k) = false := beq_eq_false_iff_ne.mpr hh
      cases v <;> simp [List.lookup, hb, hh, iht]

theorem gcRegister_items (hashes : List String) (m : List (String × Bool))
    (hne : ∀ h ∈ hashes, h ≠ "") :
    gcRegister m ((hashes.map fun h => ItemMsg.mk h "" false)
        ++ [ItemMsg.mk "" "" false])
      = some (hashes.foldl (fun acc h => setKey acc h false) m) := by
  induction hashes generalizing m with
  | nil => simp [gcRegister]
  | cons a t ih =>
    have ha : a ≠ "" := hne a (List.mem_cons_self a t)
    simp only [List.map_cons, List.cons_append, gcRegister, ha, ne_eq,
      not_false_eq_true, if_true, List.foldl_cons]
    exact ih _ (fun h hh => hne h (List.mem_cons_of_mem a hh))

/-- On an enumeration that emits only valid items before the sentinel — a
store with no junk names and no read errors — `gcMain` succeeds and removes
exactly the enumerated hashes unreachable from every node. -/
theorem gcMain_clean_spec (hashes : List String) (nodes : List (String × Entry))
    (x : String) (hne : ∀ h ∈ hashes, h ≠ "") :
    ∃ removed,
      gcMain ((hashes.map fun h => ItemMsg.mk h "" false)
          ++ [ItemMsg.mk "" "" false]) nodes = some removed
      ∧ (x ∈ removed ↔ x ∈ hashes ∧ ¬reachable nodes x) := by
  rw [gcMain, gcRegister_items hashes [] hne]
  refine ⟨_, rfl, ?_⟩
  have hreach : reachable nodes x ↔ x ∈ nodesMarks nodes := by
    simp [reachable, nodesMarks, List.mem_flatMap]
  rw [mem_false_keys_iff _ (nodup_keys_gcMap hashes nodes), lookup_nodesFold,
    lookup_casFold]
  by_cases h1 : x ∈ nodesMarks nodes <;> by_cases h2 : x ∈ hashes <;>
    simp [h1, h2, hreach]

/-- Claim C2 (code bug, evaluated at the failing input): on a store whose
`cas/` listing begins with a junk directory name followed by a valid bucket
holding one object, and with no nodes at all, `gcMain` completes successfully
having removed nothing. The `Item{Invalid: cas/!!!}` message has an empty
`Item` field and a nil `Error`, so the consumer loop (gc.go lines 48-58)
mistakes it for the `Item{}` termination sentinel and breaks, never
registering the valid object that `Enumerate` yields next — yet that object
is a well-formed CAS entry reachable from no node, so it survives a
successful GC, contradicting the claim and gc.go's own description ("moves to
trash all objects that are not referenced anymore"). The last conjunct shows
the same store without the junk name has its orphan removed. -/
theorem gcMain_stops_at_invalid :
    gcMain (enumerateItems
        [("!!!", []), ("aaa", [String.mk (List.replicate 37 'a')])]) []
      = some []
    ∧ ItemMsg.mk ("aaa" ++ String.mk (List.replicate 37 'a')) "" false
        ∈ enumerateItems
          [("!!!", []), ("aaa", [String.mk (List.replicate 37 'a')])]
    ∧ isValidHash ("aaa" ++ String.mk (List.replicate 37 'a')) = true
    ∧ ¬reachable [] ("aaa" ++ String.mk (List.replicate 37 'a'))
    ∧ gcMain (enumerateItems [("aaa", [String.mk (List.replicate 37 'a')])]) []
        = some ["aaa" ++ String.mk (List.replicate 37 'a')] := by
  refine ⟨by decide, by decide, by decide, ?_, by decide⟩
  rintro ⟨nd, hnd, -⟩
  exact absurd hnd (List.not_mem_nil nd)

/-- Per-leaf failures of `restoreEntry` (restore.go lines 41-81), tagged with
the offending path or hash as in the formatted error messages. -/
inductive RErr where
  | fetchFailed (hash : String)
  | createFailed (path : String)
  | sizeMismatch (path : String)
  deriving DecidableEq, Repr

/-- The leaf body of `restoreEntry`: open the CAS object (`cas` maps a hash to
its bytes, abstracting `cas.Open`), create the parent directories, open the
output file with `O_CREATE|O_EXCL` (an existing file is an error), copy the
object into it, and check the written byte count against the entry's recorded
size (on mismatch the error is reported but the written file remains). The
model assumes directory creation succeeds. -/
def restoreLeaf (cas : FS) (fs : FS) (sha1 : String) (size : Int)
    (root : String) : Option RErr × FS :=
  match cas sha1 with
  | none => (some (.fetchFailed sha1), fs)
  | some bytes =>
    match fs root with
    | some _ => (some (.createFailed root), fs)
    | none =>
      let fs' := fsWrite fs root bytes
      if (bytes.length : Int) ≠ size then (some (.sizeMismatch root), fs')
      else (none, fs')

mutual

/-- `restoreEntry` (restore.go lines 41-81): restore this node's own leaf if
it has a sha1 (counting a success, recording a failure), then visit every
child under `root/<name>`, accumulating the count and keeping only the first
error (`if err != nil && out == nil`). Returns (count, first error, final
filesystem). -/
def restoreEntry (cas : FS) (e : Entry) (root : String) (fs : FS) :
    Nat × Option RErr × FS :=
  match e with
  | .mk sha1 size files =>
    let s :=
      if sha1 = "" then ((0 : Nat), (none : Option RErr), fs)
      else
        match restoreLeaf cas fs sha1 size root with
        | (none, fs1) => (1, none, fs1)
        | (some err, fs1) => (0, some err, fs1)
    restoreList cas files root s.1 s.2.1 s.2.2

/-- The loop `for name, child := range entry.Files` of `restoreEntry`. -/
def restoreList (cas : FS) (files : List (String × Entry)) (root : String)
    (count : Nat) (out : Option RErr) (fs : FS) : Nat × Option RErr × FS :=
  match files with
  | [] => (count, out, fs)
  | (name, child) :: rest =>
    let r := restoreEntry cas child (root ++ "/" ++ name) fs
    restoreList cas rest root (count + r.1)
      (match out with
       | some e => some e
       | none => r.2.1) r.2.2

end

mutual

/-- Reference semantics following the spec's words: walk the entry tree
depth-first and attempt the restore of every leaf unconditionally, recording
each leaf's outcome in traversal order and threading the filesystem through
all attempts. -/
def specAttemptEntry (cas : FS) (e : Entry) (root : String) (fs : FS) :
    List (Option RErr) × FS :=
  match e with
  | .mk sha1 size files =>
    let s :=
      if sha1 = "" then (([] : List (Option RErr)), fs)
      else
        let r := restoreLeaf cas fs sha1 size root
        ([r.1], r.2)
    let t := specAttemptList cas files root s.2
    (s.1 ++ t.1, t.2)

/-- Reference semantics over a child list. -/
def specAttemptList (cas : FS) (files : List (String × Entry)) (root : String)
    (fs : FS) : List (Option RErr) × FS :=
  match files with
  | [] => ([], fs)
  | (name, child) :: rest =>
    let a := specAttemptEntry cas child (root ++ "/" ++ name) fs
    let b := specAttemptList cas rest root a.2
    (a.1 ++ b.1, b.2)

end

/-- First recorded error of a list of leaf outcomes. -/
def firstSome : List (Option RErr) → Option RErr
  | [] => none
  | some e :: _ => some e
  | none :: t => firstSome t

/-- Number of successful outcomes in a list of leaf outcomes. -/
def countNones : List (Option RErr) → Nat
  | [] => 0
  | none :: t => 1 + countNones t
  | some _ :: t => countNones t

mutual

/-- Number of leaves (nodes with a non-empty sha1) of an entry tree. -/
def numLeaves : Entry → Nat
  | .mk sha1 _ files => (if sha1 = "" then 0 else 1) + numLeavesList files

/-- Number of leaves of a child list. -/
def numLeavesList : List (String × Entry) → Nat
  | [] => 0
  | (_, e) :: rest => numLeaves e + numLeavesList rest

end

theorem firstSome_append (a b : List (Option RErr)) :
    firstSome (a ++ b)
      = match firstSome a with
        | some e => some e
        | none => firstSome b := by
  induction a with
  | nil => simp [firstSome]
  | cons x t ih =>
    cases x <;> simp [firstSome, ih]

theorem countNones_append (a b : List (Option RErr)) :
    countNones (a ++ b) = countNones a + countNones b := by
  induction a with
  | nil => simp [countNones]
  | cons x t ih =>
    cases x <;> simp [countNones, ih, Nat.add_assoc]

mutual

theorem restoreEntry_eq_attempt (cas : FS) (e : Entry) (root : String)
    (fs : FS) :
    restoreEntry cas e root fs
      = (countNones (specAttemptEntry cas e root fs).1,
         firstSome (specAttemptEntry cas e root fs).1,
         (specAttemptEntry cas e root fs).2) := by
  match e with
  | .mk sha1 size files =>
    rw [restoreEntry, specAttemptEntry]
    by_cases hs : sha1 = ""
    · simp only [hs, if_pos, if_true]
      rw [restoreList_eq_attempt]
      simp [countNones, firstSome]
    · simp only [hs, if_neg, if_false]
      match hleaf : restoreLeaf cas fs sha1 size root with
      | (none, fs1) =>
        simp only [hleaf]
        rw [restoreList_eq_attempt]
        simp [countNones_append, firstSome_append, countNones, firstSome]
      | (some err, fs1) =>
        simp only [hleaf]
        rw [restoreList_eq_attempt]
        simp [countNones_append, firstSome_append, countNones, firstSome]

theorem restoreList_eq_attempt (cas : FS) (files : List (String × Entry))
    (root : String) (count : Nat) (out : Option RErr) (fs : FS) :
    restoreList cas files root count out fs
      = (count + countNones (specAttemptList cas files root fs).1,
         (match out with
          | some e => some e
          | none => firstSome (specAttemptList cas files root fs).1),
         (specAttemptList cas files root fs).2) := by
  match files with
  | [] =>
    cases out <;> simp [restoreList, specAttemptList, countNones, firstSome]
  | (name, child) :: rest =>
    show restoreList cas ((name, child) :: rest) root count out fs = _
    rw [restoreList.eq_def, specAttemptList.eq_def]
    simp only []
    rw [restoreEntry_eq_attempt cas child (root ++ "/" ++ name) fs]
    rw [restoreList_eq_attempt]
    simp only [countNones_append, firstSome_append, Nat.add_assoc]
    cases out
    · cases hfa : firstSome (specAttemptEntry cas child (root ++ "/" ++ name) fs).1 <;>
        simp [hfa]
    · simp

end

mutual

theorem specAttemptEntry_length (cas : FS) (e : Entry) (root : String)
    (fs : FS) :
    (specAttemptEntry cas e root fs).1.length = numLeaves e := by
  match e with
  | .mk sha1 size files =>
    rw [specAttemptEntry, numLeaves]
    by_cases hs : sha1 = "" <;>
      simp [hs, specAttemptList_length, Nat.add_comm]

theorem specAttemptList_length (cas : FS) (files : List (String × Entry))
    (root : String) (fs : FS) :
    (specAttemptList cas files root fs).1.length = numLeavesList files := by
  match files with
  | [] => simp [specAttemptList, numLeavesList]
  | (name, child) :: rest =>
    rw [specAttemptList, numLeavesList]
    simp [specAttemptEntry_length, specAttemptList_length]

end

/-- Claim C8: `restoreEntry` walks the entry tree and behaves exactly like the
reference traversal that attempts the restore of every leaf (create parent
dirs, create-exclusive open, copy from the CAS, byte-count check) in
depth-first order regardless of failures: no per-leaf failure aborts the
traversal (every one of the tree's `numLeaves` leaves has an outcome and the
filesystem reflects all sibling attempts), the returned error is the first
error in traversal order, and the returned count is the number of leaves
restored successfully. -/
theorem restoreEntry_spec (cas : FS) (e : Entry) (root : String) (fs : FS) :
    restoreEntry cas e root fs
      = (countNones (specAttemptEntry cas e root fs).1,
         firstSome (specAttemptEntry cas e root fs).1,
         (specAttemptEntry cas e root fs).2)
    ∧ (specAttemptEntry cas e root fs).1.length = numLeaves e :=
  ⟨restoreEntry_eq_attempt cas e root fs, specAttemptEntry_length cas e root fs⟩

/-- The decimal rendering of a positive natural, as produced by
`fmt.Sprintf` with the decimal verb: most-significant digit first. (The loop
below only renders non-zero suffixes.) -/
def suffixStr (n : Nat) : String :=
  String.mk ((Nat.digits 10 n).reverse.map Nat.digitChar)

/-- The candidate node file name for a given retry suffix
(dumbcaslib/nodes_local.go lines 96-100): the base name
`<host>_<UTC timestamp>_<label>`, with `(<suffix>)` appended when the suffix
is non-zero. -/
def nodeName (base : String) (suffix : Nat) : String :=
  if suffix = 0 then base else base ++ "(" ++ suffixStr suffix ++ ")"

/-- The retry loop of `nodesTable.AddEntry` (nodes_local.go lines 95-113):
try the name for the current suffix with an `O_WRONLY|O_EXCL|O_CREATE` open —
which fails exactly when the file exists — and on failure increment the
suffix and retry. The loop is modelled with fuel; `AddEntry` supplies enough
fuel for the finite directory. -/
def tryNames (existing : List String) (base : String) :
    Nat → Nat → Option String
  | _, 0 => none
  | suffix, fuel + 1 =>
    if nodeName base suffix ∈ existing then
      tryNames existing base (suffix + 1) fuel
    else some (nodeName base suffix)

/-- The naming portion of `nodesTable.AddEntry` (nodes_local.go lines 82-142):
derive the base name from host, UTC timestamp and label, find the first free
suffixed name in the month directory (`existing` is the set of file names
already present there), write the node there, and return the relative path
`<month>/<filename>` together with the month directory's new contents. The
JSON payload and the tag update do not affect the chosen name and are not
modelled. -/
def nodesAddEntry (existing : List String) (host ts label month : String) :
    Option (String × List String) :=
  let base := host ++ "_" ++ ts ++ "_" ++ label
  match tryNames existing base 0 (existing.length + 1) with
  | none => none
  | some name => some (month ++ "/" ++ name, name :: existing)

theorem digitChar_toNat (d : Nat) (hd : d < 10) :
    (Nat.digitChar d).toNat = 48 + d := by
  interval_cases d <;> rfl

theorem suffixStr_inj {m n : Nat} (h : suffixStr m = suffixStr n) : m = n := by
  have hdata : ((Nat.digits 10 m).reverse.map Nat.digitChar)
      = ((Nat.digits 10 n).reverse.map Nat.digitChar) := by
    have hc := congrArg String.data h
    simpa [suffixStr] using hc
  have hrec : ∀ k : Nat,
      ((Nat.digits 10 k).reverse.map Nat.digitChar).map (fun c => c.toNat - 48)
        = (Nat.digits 10 k).reverse := by
    intro k
    rw [List.map_map]
    have hid : ∀ d ∈ (Nat.digits 10 k).reverse,
        ((fun c => c.toNat - 48) ∘ Nat.digitChar) d = d := by
      intro d hd
      have hlt : d < 10 :=
        Nat.digits_lt_base (by norm_num) (List.mem_reverse.mp hd)
      simp [Function.comp, digitChar_toNat d hlt]
    rw [List.map_congr_left hid]
    simp
  have hdig : Nat.digits 10 m = Nat.digits 10 n :=
    List.reverse_injective (by rw [← hrec m, ← hrec n, hdata])
  calc m = Nat.ofDigits 10 (Nat.digits 10 m) := (Nat.ofDigits_digits 10 m).symm
    _ = Nat.ofDigits 10 (Nat.digits 10 n) := by rw [hdig]
    _ = n := Nat.ofDigits_digits 10 n

theorem nodeName_inj (base : String) : Function.Injective (nodeName base) := by
  intro j k h
  by_cases hj : j = 0 <;> by_cases hk : k = 0
  · rw [hj, hk]
  · exfalso
    rw [nodeName, nodeName, if_pos hj, if_neg hk] at h
    have hl := congrArg String.length h
    have hop : "(".length = 1 := rfl
    have hcl : ")".length = 1 := rfl
    simp only [String.length_append, hop, hcl] at hl
    omega
  · exfalso
    rw [nodeName, nodeName, if_neg hj, if_pos hk] at h
    have hl := congrArg String.length h
    have hop : "(".length = 1 := rfl
    have hcl : ")".length = 1 := rfl
    simp only [String.length_append, hop, hcl] at hl
    omega
  · rw [nodeName, nodeName, if_neg hj, if_neg hk] at h
    rw [String.append_assoc (base ++ "(") (suffixStr j) ")"] at h
    rw [String.append_assoc (base ++ "(") (suffixStr k) ")"] at h
    have h1 := (string_append_inj h rfl).2
    have hl := congrArg String.length h1
    simp only [String.length_append] at hl
    have h2 := (string_append_inj h1 (by omega)).1
    exact suffixStr_inj h2

theorem tryNames_none (existing : List String) (base : String) :
    ∀ fuel s, tryNames existing base s fuel = none →
      ∀ i < fuel, nodeName base (s + i) ∈ existing := by
  intro fuel
  induction fuel with
  | zero => intro s _ i hi; omega
  | succ f ih =>
    intro s h i hi
    rw [tryNames] at h
    by_cases hmem : nodeName base s ∈ existing
    · rw [if_pos hmem] at h
      match i with
      | 0 => simpa using hmem
      | i' + 1 =>
        have := ih (s + 1) h i' (by omega)
        have harith : s + 1 + i' = s + (i' + 1) := by omega
        rwa [harith] at this
    · rw [if_neg hmem] at h
      exact absurd h (by simp)

theorem tryNames_some (existing : List String) (base : String) :
    ∀ fuel s name, tryNames existing base s fuel = some name →
      ∃ i < fuel, name = nodeName base (s + i) ∧ name ∉ existing
        ∧ ∀ j < i, nodeName base (s + j) ∈ existing := by
  intro fuel
  induction fuel with
  | zero => intro s name h; exact absurd h (by simp [tryNames])
  | succ f ih =>
    intro s name h
    rw [tryNames] at h
    by_cases hmem : nodeName base s ∈ existing
    · rw [if_pos hmem] at h
      obtain ⟨i, hif, hname, hnotin, hall⟩ := ih (s + 1) name h
      refine ⟨i + 1, by omega, by rwa [show s + (i + 1) = s + 1 + i by omega],
        hnotin, ?_⟩
      intro j hj
      match j with
      | 0 => simpa using hmem
      | j' + 1 =>
        have := hall j' (by omega)
        rwa [show s + 1 + j' = s + (j' + 1) by omega] at this
    · rw [if_neg hmem] at h
      have hname : name = nodeName base s := by
        injection h with h'
        exact h'.symm
      exact ⟨0, by omega, by simpa using hname, hname ▸ hmem, by omega⟩

theorem tryNames_isSome (existing : List String) (base : String) :
    ∃ name, tryNames existing base 0 (existing.length + 1) = some name := by
  match hres : tryNames existing base 0 (existing.length + 1) with
  | some name => exact ⟨name, rfl⟩
  | none =>
    exfalso
    have hall := tryNames_none existing base _ 0 hres
    have hsub : ((List.range (existing.length + 1)).map (nodeName base))
        ⊆ existing := by
      intro x hx
      obtain ⟨i, hi, rfl⟩ := List.mem_map.mp hx
      have := hall i (List.mem_range.mp hi)
      simpa using this
    have hnd : ((List.range (existing.length + 1)).map (nodeName base)).Nodup :=
      (List.nodup_range _).map (nodeName_inj base)
    have hle := (List.subperm_of_subset hnd hsub).length_le
    simp at hle

/-- Claim C6: `NodesTable.AddEntry` derives the base name
`<host>_<UTC timestamp>_<label>`; when that file exists it appends `(1)`,
`(2)`, ... monotonically (the chosen suffix is the least free one: every
earlier candidate already exists) until the exclusive create succeeds, and
returns the relative path `<month>/<filename>`; a second add with the same
label in the same second also succeeds, with a distinct name. -/
theorem nodesAddEntry_spec (existing : List String)
    (host ts label month : String) :
    ∃ name k,
      nodesAddEntry existing host ts label month
          = some (month ++ "/" ++ name, name :: existing)
      ∧ name = nodeName (host ++ "_" ++ ts ++ "_" ++ label) k
      ∧ name ∉ existing
      ∧ (∀ j < k, nodeName (host ++ "_" ++ ts ++ "_" ++ label) j ∈ existing)
      ∧ ∃ name2,
          nodesAddEntry (name :: existing) host ts label month
              = some (month ++ "/" ++ name2, name2 :: name :: existing)
          ∧ name2 ≠ name ∧ name2 ∉ existing := by
  obtain ⟨name, hname⟩ :=
    tryNames_isSome existing (host ++ "_" ++ ts ++ "_" ++ label)
  obtain ⟨k, _, hk, hnotin, hleast⟩ :=
    tryNames_some existing (host ++ "_" ++ ts ++ "_" ++ label) _ _ _ hname
  obtain ⟨name2, hname2⟩ :=
    tryNames_isSome (name :: existing) (host ++ "_" ++ ts ++ "_" ++ label)
  obtain ⟨k2, _, hk2, hnotin2, hleast2⟩ :=
    tryNames_some (name :: existing) (host ++ "_" ++ ts ++ "_" ++ label)
      _ _ _ hname2
  refine ⟨name, k, ?_, by simpa using hk, hnotin,
    fun j hj => by simpa using hleast j hj, name2, ?_, ?_, ?_⟩
  · rw [nodesAddEntry]
    simp only [hname]
  · rw [nodesAddEntry]
    simp only [hname2]
  · exact fun hcon => hnotin2 (hcon ▸ List.mem_cons_self name existing)
  · exact fun hcon => hnotin2 (List.mem_cons_of_mem name hcon)

/-- Witness for `countMembers_one_plus_children` at a concrete tree. -/
theorem countMembers_witness :
    0 < Entry.countMembers
        (.mk "" 0 [("a", .mk "h1" 1 []), ("b", .mk "" 0 [("c", .mk "h2" 2 [])])])
    ∧ Entry.countMembers
        (.mk "" 0 [("a", .mk "h1" 1 []), ("b", .mk "" 0 [("c", .mk "h2" 2 [])])])
        = 4 :=
  ⟨(countMembers_one_plus_children.1 _).2, by decide⟩

/-- Witness for `restoreEntry_spec` at a concrete tree: the middle child's
hash is missing from the CAS, yet both siblings are restored (count 2) and
the missing-object error is the one returned. -/
theorem restoreEntry_spec_witness :
    (restoreEntry (fun h => if h = "h1" then some [7] else none)
        (.mk "" 0 [("a", .mk "h1" 1 []), ("m", .mk "zz" 1 []),
          ("b", .mk "h1" 1 [])]) "out" fsEmpty).1 = 2
    ∧ (restoreEntry (fun h => if h = "h1" then some [7] else none)
        (.mk "" 0 [("a", .mk "h1" 1 []), ("m", .mk "zz" 1 []),
          ("b", .mk "h1" 1 [])]) "out" fsEmpty).2.1
        = some (.fetchFailed "zz") := by
  obtain ⟨h1, -⟩ := restoreEntry_spec
    (fun h => if h = "h1" then some [7] else none)
    (.mk "" 0 [("a", .mk "h1" 1 []), ("m", .mk "zz" 1 []),
      ("b", .mk "h1" 1 [])]) "out" fsEmpty
  rw [h1]
  constructor <;> decide

/-- Witness for `nodesAddEntry_spec`: an add into a month directory that
already holds the base name succeeds. -/
theorem nodesAddEntry_spec_witness :
    (nodesAddEntry ["h_t_l"] "h" "t" "l" "2012-01").isSome = true := by
  obtain ⟨name, k, heq, -⟩ := nodesAddEntry_spec ["h_t_l"] "h" "t" "l" "2012-01"
  rw [heq]
  rfl

end Dumbcas
